import Mathlib

/-
Verification of the karaoke performance-analysis engine
(AI_CORE: performance.py, scorer.py, karaoke_app.py).

Modelling conventions:
- A frequency frame is an (Option Real): the numpy NaN sentinel for
  an unvoiced frame is modelled as Option.none, a voiced frame as some f.
- numpy arrays become Lists; np.mean, np.std (population), np.max become
  lmean, lstd, lmax below.
- scipy.signal.savgol_filter is an external library collaborator (with an
  identity fallback in the source's try/except); it is modelled as an
  explicit function parameter named smooth.
- Raising an exception is modelled with Except.
-/

set_option maxHeartbeats 1000000

namespace AiCore

/-- Mean of a list of reals (np.mean): sum divided by length. -/
noncomputable def lmean (l : List ℝ) : ℝ := l.sum / l.length

/-- Population standard deviation of a list of reals (np.std). -/
noncomputable def lstd (l : List ℝ) : ℝ :=
  Real.sqrt (lmean (l.map (fun x => (x - lmean l) ^ 2)))

/-- Maximum of a list of reals (np.max), 0 on the empty list. -/
noncomputable def lmax : List ℝ → ℝ
  | [] => 0
  | h :: t => t.foldl max h

/-- The pairs of frames where both the user value and the target value are
present: the mask of jointly non-NaN frames in analyze_pitch_accuracy and
Scorer.score_pitch, applied to both arrays. -/
def maskedPairs : List (Option ℝ) → List (Option ℝ) → List (ℝ × ℝ)
  | [], _ => []
  | _, [] => []
  | a :: u, b :: t =>
    match a, b with
    | some x, some y => (x, y) :: maskedPairs u t
    | _, _ => maskedPairs u t

/-- Voiced (time, frequency) pairs of a contour: the non-NaN mask of the
pitch array applied to both the pitch and the time array. -/
def voicedPairs : List (Option ℝ) → List ℝ → List (ℝ × ℝ)
  | some v :: ps, t :: ts => (t, v) :: voicedPairs ps ts
  | none :: ps, _ :: ts => voicedPairs ps ts
  | _, _ => []

/-- Scorer.score_pitch from scorer.py: raise on shape mismatch, mask
jointly voiced frames, 0.0 when the mask is empty, otherwise
100 - 0.5 * (mean absolute Hz error), clamped into the interval
from 0 to 100. -/
noncomputable def score_pitch (user_pitch target_pitch : List (Option ℝ)) :
    Except String ℝ :=
  if user_pitch.length = target_pitch.length then
    let diff := (maskedPairs user_pitch target_pitch).map (fun p => |p.1 - p.2|)
    if diff = [] then Except.ok 0
    else Except.ok (max 0 (min 100 (100 - lmean diff * 0.5)))
  else Except.error "Shape mismatch"

/-- PitchMetrics dataclass of performance.py. The two error fields are
np.nan in the degenerate case; NaN is modelled as Option.none. -/
structure PitchMetrics where
  mean_error_hz : Option ℝ
  std_error_hz : Option ℝ
  accuracy : ℝ
  stability : ℝ
  voiced_frames : ℕ
  total_frames : ℕ

/-- PerformanceAnalyzer.analyze_pitch_accuracy from performance.py.
tol is the analyzer's pitch_tolerance_cents field (default 100.0).
The time argument is taken, as in the source, and never used. -/
noncomputable def analyze_pitch_accuracy (tol : ℝ)
    (user_pitch target_pitch : List (Option ℝ)) (time : List ℝ) :
    PitchMetrics :=
  let mp := maskedPairs user_pitch target_pitch
  if mp = [] then
    { mean_error_hz := none, std_error_hz := none, accuracy := 0,
      stability := 0, voiced_frames := 0, total_frames := user_pitch.length }
  else
    let error_hz := mp.map (fun p => |p.1 - p.2|)
    let error_cents := mp.map (fun p => |1200 * Real.logb 2 (p.1 / p.2)|)
    let accuracy :=
      100 * ((error_cents.countP (fun e => decide (e < tol)) : ℝ)) /
        (error_cents.length : ℝ)
    let variation := lstd error_hz / (lmean error_hz + 1e-6)
    { mean_error_hz := some (lmean error_hz),
      std_error_hz := some (lstd error_hz),
      accuracy := accuracy,
      stability := 1 / (1 + variation),
      voiced_frames := mp.length,
      total_frames := user_pitch.length }

/-- VibratoMetrics dataclass of performance.py. -/
structure VibratoMetrics where
  detected : Bool
  frequency_hz : Option ℝ
  depth_cents : Option ℝ
  coverage : ℝ

/-- The not-detected result VibratoMetrics(detected=False): frequency and
depth absent, coverage 0. -/
def VibratoMetrics.notDetected : VibratoMetrics :=
  { detected := false, frequency_hz := none, depth_cents := none, coverage := 0 }

/-- Local maxima of a list whose height reaches the threshold:
scipy.signal.find_peaks(a, height=h) restricted to the simple
strictly-greater-than-both-neighbours case used here. -/
noncomputable def findPeaks (height : ℝ) (a : List ℝ) : List ℕ :=
  (List.range a.length).filter (fun i =>
    decide (0 < i) && decide (i + 1 < a.length) &&
    decide (a.getD (i - 1) 0 < a.getD i 0) &&
    decide (a.getD (i + 1) 0 < a.getD i 0) &&
    decide (height ≤ a.getD i 0))

/-- Nonnegative-lag slice of np.correlate(a, a, mode=full), normalized by
its lag-0 entry: entry k is the sum over i of a(i+k) * a(i), divided by
the lag-0 sum. -/
noncomputable def autocorrNorm (a : List ℝ) : List ℝ :=
  let raw := (List.range a.length).map
    (fun k => (List.zipWith (fun x y => x * y) (a.drop k) a).sum)
  raw.map (fun x => x / raw.headD 0)

/-- The residual valid_pitch - smoothed inside detect_vibrato, with the
savgol smoothing step abstracted as the function smooth. -/
noncomputable def vibrato_residual (smooth : List ℝ → List ℝ)
    (pitch : List (Option ℝ)) (time : List ℝ) : List ℝ :=
  let vp := (voicedPairs pitch time).map Prod.snd
  List.zipWith (fun a b => a - b) vp (smooth vp)

/-- max_lag = int(0.5 * len(residual)) inside detect_vibrato: half the
residual length in frames, truncated. -/
noncomputable def vibrato_max_lag (smooth : List ℝ → List ℝ)
    (pitch : List (Option ℝ)) (time : List ℝ) : ℕ :=
  (vibrato_residual smooth pitch time).length / 2

/-- The normalized autocorrelation of the zero-meaned residual inside
detect_vibrato. -/
noncomputable def vibrato_autocorr (smooth : List ℝ → List ℝ)
    (pitch : List (Option ℝ)) (time : List ℝ) : List ℝ :=
  let residual := vibrato_residual smooth pitch time
  autocorrNorm (residual.map (fun x => x - lmean residual))

/-- The find_peaks call of detect_vibrato: peaks of height at least 0.3 in
the autocorrelation restricted to the first max_lag lags. -/
noncomputable def vibrato_peaks (smooth : List ℝ → List ℝ)
    (pitch : List (Option ℝ)) (time : List ℝ) : List ℕ :=
  findPeaks 0.3
    ((vibrato_autocorr smooth pitch time).take (vibrato_max_lag smooth pitch time))

/-- Mean sample interval np.mean(np.diff(ts)) of a time grid. -/
noncomputable def mean_sample_interval (ts : List ℝ) : ℝ :=
  lmean (List.zipWith (fun a b => a - b) ts.tail ts)

/-- The candidate vibrato frequency of detect_vibrato: the effective sample
rate 1 / mean(diff(valid_time)) divided by the first peak lag. -/
noncomputable def vibrato_freq (smooth : List ℝ → List ℝ)
    (pitch : List (Option ℝ)) (time : List ℝ) : ℝ :=
  (1 / mean_sample_interval ((voicedPairs pitch time).map Prod.fst)) /
    (((vibrato_peaks smooth pitch time).headD 0 : ℕ) : ℝ)

/-- The signed vibrato depth of detect_vibrato:
1200 * log2(max(residual) / mean(smoothed)). -/
noncomputable def vibrato_depth (smooth : List ℝ → List ℝ)
    (pitch : List (Option ℝ)) (time : List ℝ) : ℝ :=
  1200 * Real.logb 2 (lmax (vibrato_residual smooth pitch time) /
    lmean (smooth ((voicedPairs pitch time).map Prod.snd)))

/-- PerformanceAnalyzer.detect_vibrato from performance.py.
freq_range and min_depth are the analyzer's vibrato_freq_range and
min_vibrato_depth fields (defaults (4.0, 8.0) and 30.0); smooth is the
external savgol smoothing step. -/
noncomputable def detect_vibrato (freq_range : ℝ × ℝ) (min_depth : ℝ)
    (smooth : List ℝ → List ℝ) (pitch : List (Option ℝ)) (time : List ℝ) :
    VibratoMetrics :=
  if pitch.countP (fun v => v.isSome) < 100 then .notDetected
  else if vibrato_max_lag smooth pitch time < 10 then .notDetected
  else if vibrato_peaks smooth pitch time = [] then .notDetected
  else if ¬ (freq_range.1 ≤ vibrato_freq smooth pitch time ∧
      vibrato_freq smooth pitch time ≤ freq_range.2) then .notDetected
  else if |vibrato_depth smooth pitch time| < min_depth then .notDetected
  else
    { detected := true,
      frequency_hz := some (vibrato_freq smooth pitch time),
      depth_cents := some |vibrato_depth smooth pitch time|,
      coverage :=
        100 * (((vibrato_residual smooth pitch time).countP
            (fun x => decide (lstd (vibrato_residual smooth pitch time) < |x|)) : ℕ) : ℝ) /
          (((vibrato_residual smooth pitch time).length : ℕ) : ℝ) }

/-- ScoreReport of performance.py (the feedback-note text map, unused by
every claim, is not modelled). -/
structure ScoreReport where
  total_score : ℝ
  pitch_metrics : PitchMetrics
  vibrato_metrics : VibratoMetrics
  duration : ℝ

/-- PerformanceAnalyzer.generate_report from performance.py. The optional
injected scorer strategy is a plain function producing the base score. -/
noncomputable def generate_report (tol : ℝ) (freq_range : ℝ × ℝ) (min_depth : ℝ)
    (smooth : List ℝ → List ℝ)
    (scorer : Option (List (Option ℝ) → List (Option ℝ) → ℝ))
    (user_pitch target_pitch : List (Option ℝ)) (time : List ℝ) : ScoreReport :=
  let pm := analyze_pitch_accuracy tol user_pitch target_pitch time
  let vm := detect_vibrato freq_range min_depth smooth user_pitch time
  let base := match scorer with
    | some s => s user_pitch target_pitch
    | none => pm.accuracy
  let vibrato_bonus : ℝ := if vm.detected then 5 else 0
  let stability_bonus := pm.stability * 10
  let duration : ℝ := match time with
    | [] => 0
    | h :: rest => rest.getLastD h - h
  { total_score := max 0 (min 100 (base + vibrato_bonus + stability_bonus)),
    pitch_metrics := pm,
    vibrato_metrics := vm,
    duration := duration }

/-- The hard physical plausibility filter at the end of
KaraokeApp.align_pitch: values below 50 Hz or above 2000 Hz become NaN. -/
noncomputable def clipRange (v : ℝ) : Option ℝ :=
  if v < 50 then none else if 2000 < v then none else some v

/-- Value of the segment through a and b at x (linear, no clamping). -/
noncomputable def interpSeg (a b : ℝ × ℝ) (x : ℝ) : ℝ :=
  a.2 + (x - a.1) * (b.2 - a.2) / (b.1 - a.1)

/-- scipy.interpolate.interp1d with kind=linear and fill_value=extrapolate
over strictly increasing knots: linear interpolation on the first
bracketing segment, linear extrapolation from the end segments. -/
noncomputable def interp1d : List (ℝ × ℝ) → ℝ → ℝ
  | [], _ => 0
  | [p], _ => p.2
  | [p, q], x => interpSeg p q x
  | p :: q :: r :: rest, x =>
    if x ≤ q.1 then interpSeg p q x else interp1d (q :: r :: rest) x

/-- KaraokeApp._align_pitch from karaoke_app.py: with fewer than 2 voiced
user points return an all-NaN array shaped like target_pitch; otherwise
linearly interpolate the voiced user points onto target_time with
extrapolation, then apply the 50 to 2000 Hz plausibility filter. -/
noncomputable def align_pitch (user_pitch : List (Option ℝ)) (user_time : List ℝ)
    (target_pitch : List (Option ℝ)) (target_time : List ℝ) : List (Option ℝ) :=
  if user_pitch.countP (fun v => v.isSome) < 2 then
    target_pitch.map (fun _ => none)
  else
    target_time.map (fun x => clipRange (interp1d (voicedPairs user_pitch user_time) x))

/-- Time grid of n samples spaced 1 second apart starting at s: used as a
concrete input exercising detect_vibrato's lag window. -/
def rampTimes : ℕ → ℝ → List ℝ
  | 0, _ => []
  | n + 1, s => s :: rampTimes n (s + 1)

/-- Unfolding lemma: empty user list. -/
@[simp] theorem maskedPairs_nil_left (t : List (Option ℝ)) : maskedPairs [] t = [] := by
  cases t <;> rfl

/-- Unfolding lemma: empty target list. -/
@[simp] theorem maskedPairs_nil_right (u : List (Option ℝ)) : maskedPairs u [] = [] := by
  cases u <;> rfl

/-- Unfolding lemma: both heads voiced. -/
@[simp] theorem maskedPairs_cons_some (a b : ℝ) (u t : List (Option ℝ)) :
    maskedPairs (some a :: u) (some b :: t) = (a, b) :: maskedPairs u t := rfl

/-- Unfolding lemma: unvoiced user head. -/
@[simp] theorem maskedPairs_cons_none_left (o : Option ℝ) (u t : List (Option ℝ)) :
    maskedPairs (none :: u) (o :: t) = maskedPairs u t := by
  cases o <;> rfl

/-- Unfolding lemma: unvoiced target head. -/
@[simp] theorem maskedPairs_cons_none_right (o : Option ℝ) (u t : List (Option ℝ)) :
    maskedPairs (o :: u) (none :: t) = maskedPairs u t := by
  cases o <;> rfl

/-- Unfolding lemma: voiced head contour pair. -/
@[simp] theorem voicedPairs_cons_some (v : ℝ) (ps : List (Option ℝ)) (t : ℝ) (ts : List ℝ) :
    voicedPairs (some v :: ps) (t :: ts) = (t, v) :: voicedPairs ps ts := rfl

/-- Unfolding lemma: unvoiced head frame is dropped. -/
@[simp] theorem voicedPairs_cons_none (ps : List (Option ℝ)) (t : ℝ) (ts : List ℝ) :
    voicedPairs (none :: ps) (t :: ts) = voicedPairs ps ts := rfl

/-- Unfolding lemma: empty pitch list. -/
@[simp] theorem voicedPairs_nil_left (ts : List ℝ) : voicedPairs [] ts = [] := by
  cases ts <;> rfl

/-- Unfolding lemma: empty time list. -/
@[simp] theorem voicedPairs_nil_right (ps : List (Option ℝ)) : voicedPairs ps [] = [] := by
  cases ps with
  | nil => rfl
  | cons o tl => cases o <;> rfl

/-- Every masked pair of a contour against itself is a pair of equal values. -/
theorem maskedPairs_self_mem : ∀ (u : List (Option ℝ)) (p : ℝ × ℝ),
    p ∈ maskedPairs u u → p.1 = p.2 := by
  intro u
  induction u with
  | nil => intro p hp; simp at hp
  | cons o u ih =>
    intro p hp
    cases o with
    | none =>
      rw [maskedPairs_cons_none_left] at hp
      exact ih p hp
    | some a =>
      rw [maskedPairs_cons_some] at hp
      rcases List.mem_cons.mp hp with h | h
      · rw [h]
      · exact ih p h

/-- A nonempty fully voiced contour masked against itself is nonempty. -/
theorem maskedPairs_self_ne_nil (u : List (Option ℝ)) (hpos : 0 < u.length)
    (hv : ∀ x ∈ u, x ≠ none) : maskedPairs u u ≠ [] := by
  cases u with
  | nil => simp at hpos
  | cons o tl =>
    cases o with
    | none => exact absurd rfl (hv none (List.mem_cons_self _ _))
    | some a => simp

/-- If at every index at least one of the two frames is unvoiced, the mask
selects nothing. -/
theorem maskedPairs_eq_nil_of_no_overlap :
    ∀ (u t : List (Option ℝ)),
      (∀ (i : ℕ) (h1 : i < u.length) (h2 : i < t.length),
        u.get ⟨i, h1⟩ = none ∨ t.get ⟨i, h2⟩ = none) →
      maskedPairs u t = [] := by
  intro u
  induction u with
  | nil => intro t _; exact maskedPairs_nil_left t
  | cons o u ih =>
    intro t h
    cases t with
    | nil => exact maskedPairs_nil_right _
    | cons b tl =>
      have h0 : o = none ∨ b = none := h 0 (by simp) (by simp)
      have htail : ∀ (i : ℕ) (h1 : i < u.length) (h2 : i < tl.length),
          u.get ⟨i, h1⟩ = none ∨ tl.get ⟨i, h2⟩ = none := by
        intro i h1 h2
        exact h (i + 1) (Nat.succ_lt_succ h1) (Nat.succ_lt_succ h2)
      rcases h0 with h0 | h0
      · rw [h0, maskedPairs_cons_none_left]
        exact ih tl htail
      · rw [h0, maskedPairs_cons_none_right]
        exact ih tl htail

/-- The mean of a list of nonnegative reals is nonnegative. -/
theorem lmean_nonneg (l : List ℝ) (h : ∀ x ∈ l, 0 ≤ x) : 0 ≤ lmean l :=
  div_nonneg (List.sum_nonneg h) (Nat.cast_nonneg _)

/-- The standard deviation is nonnegative. -/
theorem lstd_nonneg (l : List ℝ) : 0 ≤ lstd l := Real.sqrt_nonneg _

/-- C10: the PitchMetrics produced by analyze_pitch_accuracy does not
depend on the time argument: any two time arrays give identical results
for fixed frequency arrays. -/
theorem analyze_time_independent (tol : ℝ) (u t : List (Option ℝ)) (t1 t2 : List ℝ) :
    analyze_pitch_accuracy tol u t t1 = analyze_pitch_accuracy tol u t t2 := rfl

/-- C7: score_pitch fails exactly on a shape mismatch, and on equal shapes
always returns a numeric score. -/
theorem score_pitch_error_iff (u t : List (Option ℝ)) :
    ((∃ e, score_pitch u t = Except.error e) ↔ u.length ≠ t.length)
    ∧ (u.length = t.length → ∃ x, score_pitch u t = Except.ok x) := by
  by_cases h : u.length = t.length
  · constructor
    · constructor
      · rintro ⟨e, he⟩
        simp only [score_pitch, if_pos h] at he
        split at he <;> exact Except.noConfusion he
      · intro hne
        exact absurd h hne
    · intro _
      simp only [score_pitch, if_pos h]
      split
      · exact ⟨0, rfl⟩
      · exact ⟨_, rfl⟩
  · constructor
    · constructor
      · intro _
        exact h
      · intro _
        refine ⟨"Shape mismatch", ?_⟩
        simp only [score_pitch, if_neg h]
    · intro heq
      exact absurd heq h

/-- C7 witness: at one concrete mismatched and one concrete matched input. -/
theorem score_pitch_error_iff_witness :
    ((∃ e, score_pitch [some (440 : ℝ)] [] = Except.error e) ↔
      ([some (440 : ℝ)] : List (Option ℝ)).length ≠ ([] : List (Option ℝ)).length) ∧
    (([some (440 : ℝ)] : List (Option ℝ)).length = ([] : List (Option ℝ)).length →
      ∃ x, score_pitch [some (440 : ℝ)] [] = Except.ok x) :=
  score_pitch_error_iff [some (440 : ℝ)] []

/-- C6: on equal shapes score_pitch returns 100 minus half the mean
absolute Hz error over jointly voiced frames, clamped into the interval
from 0 to 100; it returns 0 when no frame is jointly voiced; and on an
identical fully voiced nonempty pair it returns exactly 100. -/
theorem score_pitch_spec (u t : List (Option ℝ)) (h : u.length = t.length) :
    score_pitch u t =
      Except.ok (if maskedPairs u t = [] then 0
        else max 0 (min 100 (100 - lmean ((maskedPairs u t).map (fun p => |p.1 - p.2|)) * 0.5)))
    ∧ (maskedPairs u t = [] → score_pitch u t = Except.ok 0)
    ∧ (0 < u.length → (∀ x ∈ u, x ≠ none) → score_pitch u u = Except.ok 100) := by
  refine ⟨?_, ?_, ?_⟩
  · simp only [score_pitch, if_pos h]
    by_cases hm : maskedPairs u t = []
    · rw [if_pos (by simp [hm]), if_pos hm]
    · rw [if_neg (by simp [hm]), if_neg hm]
  · intro hm
    simp only [score_pitch, if_pos h]
    rw [if_pos (by simp [hm])]
  · intro hpos hvoiced
    have hne : maskedPairs u u ≠ [] := maskedPairs_self_ne_nil u hpos hvoiced
    have hmean : lmean ((maskedPairs u u).map (fun p => |p.1 - p.2|)) = 0 := by
      unfold lmean
      rw [List.sum_eq_zero, zero_div]
      intro x hx
      rcases List.mem_map.mp hx with ⟨p, hp, rfl⟩
      rw [maskedPairs_self_mem u p hp]
      simp
    have hne2 : ((maskedPairs u u).map (fun p => |p.1 - p.2|)) ≠ [] := by
      simpa using hne
    simp only [score_pitch, if_pos (rfl : u.length = u.length)]
    rw [if_neg hne2, hmean]
    norm_num

/-- C6 witness: applied at a concrete equal-shape pair. -/
theorem score_pitch_spec_witness :
    score_pitch [some (440 : ℝ)] [some (523.25 : ℝ)] =
      Except.ok (if maskedPairs [some (440 : ℝ)] [some (523.25 : ℝ)] = [] then 0
        else max 0 (min 100 (100 - lmean ((maskedPairs [some (440 : ℝ)] [some (523.25 : ℝ)]).map
          (fun p => |p.1 - p.2|)) * 0.5)))
    ∧ (maskedPairs [some (440 : ℝ)] [some (523.25 : ℝ)] = [] →
        score_pitch [some (440 : ℝ)] [some (523.25 : ℝ)] = Except.ok 0)
    ∧ (0 < ([some (440 : ℝ)] : List (Option ℝ)).length →
        (∀ x ∈ ([some (440 : ℝ)] : List (Option ℝ)), x ≠ none) →
        score_pitch [some (440 : ℝ)] [some (440 : ℝ)] = Except.ok 100) :=
  score_pitch_spec [some (440 : ℝ)] [some (523.25 : ℝ)] rfl

/-- C5: two equal-length contours with no jointly voiced frame yield the
degenerate metrics: NaN error fields (modelled as none), accuracy 0,
stability 0, 0 voiced frames, total_frames the input length, with no
exception raised (the function is total). -/
theorem analyze_no_overlap (tol : ℝ) (u t : List (Option ℝ)) (time : List ℝ)
    (hlen : u.length = t.length)
    (h : ∀ (i : ℕ) (h1 : i < u.length) (h2 : i < t.length),
      u.get ⟨i, h1⟩ = none ∨ t.get ⟨i, h2⟩ = none) :
    analyze_pitch_accuracy tol u t time =
      { mean_error_hz := none, std_error_hz := none, accuracy := 0,
        stability := 0, voiced_frames := 0, total_frames := u.length } := by
  have hm := maskedPairs_eq_nil_of_no_overlap u t h
  simp only [analyze_pitch_accuracy, hm, if_true, eq_self_iff_true]

/-- C5 witness: two length-2 contours with disjoint voicing. -/
theorem analyze_no_overlap_witness :
    ([some (440 : ℝ), none] : List (Option ℝ)).length =
      ([none, some (330 : ℝ)] : List (Option ℝ)).length
    ∧ analyze_pitch_accuracy 100 [some (440 : ℝ), none] [none, some (330 : ℝ)] [] =
      { mean_error_hz := none, std_error_hz := none, accuracy := 0,
        stability := 0, voiced_frames := 0,
        total_frames := ([some (440 : ℝ), none] : List (Option ℝ)).length } :=
  ⟨rfl, analyze_no_overlap 100 [some (440 : ℝ), none] [none, some (330 : ℝ)] [] rfl
    (by
      intro i h1 h2
      match i, h1 with
      | 0, _ => exact Or.inr rfl
      | 1, _ => exact Or.inl rfl)⟩

/-- C1: with at least one jointly voiced frame, the metrics satisfy
0 <= accuracy <= 100 and 0 <= stability <= 1, and every report's
total_score lies in the interval from 0 to 100. -/
theorem report_and_metrics_bounds (tol : ℝ) (u t : List (Option ℝ)) (time : List ℝ)
    (h : maskedPairs u t ≠ []) :
    (0 ≤ (analyze_pitch_accuracy tol u t time).accuracy ∧
      (analyze_pitch_accuracy tol u t time).accuracy ≤ 100) ∧
    (0 ≤ (analyze_pitch_accuracy tol u t time).stability ∧
      (analyze_pitch_accuracy tol u t time).stability ≤ 1) ∧
    (∀ (fr : ℝ × ℝ) (md : ℝ) (smooth : List ℝ → List ℝ)
      (scorer : Option (List (Option ℝ) → List (Option ℝ) → ℝ))
      (u2 t2 : List (Option ℝ)) (tm2 : List ℝ),
      0 ≤ (generate_report tol fr md smooth scorer u2 t2 tm2).total_score ∧
      (generate_report tol fr md smooth scorer u2 t2 tm2).total_score ≤ 100) := by
  have hrep : ∀ (fr : ℝ × ℝ) (md : ℝ) (smooth : List ℝ → List ℝ)
      (scorer : Option (List (Option ℝ) → List (Option ℝ) → ℝ))
      (u2 t2 : List (Option ℝ)) (tm2 : List ℝ),
      0 ≤ (generate_report tol fr md smooth scorer u2 t2 tm2).total_score ∧
      (generate_report tol fr md smooth scorer u2 t2 tm2).total_score ≤ 100 := by
    intro fr md smooth scorer u2 t2 tm2
    simp only [generate_report]
    exact ⟨le_max_left _ _, max_le (by norm_num) (min_le_left _ _)⟩
  simp only [analyze_pitch_accuracy, if_neg h]
  have hnpos : (0 : ℝ) < (maskedPairs u t).length := by
    exact_mod_cast List.length_pos.mpr h
  have hmean : 0 ≤ lmean ((maskedPairs u t).map (fun p => |p.1 - p.2|)) := by
    apply lmean_nonneg
    intro x hx
    rcases List.mem_map.mp hx with ⟨p, _, rfl⟩
    exact abs_nonneg _
  have hvar : 0 ≤ lstd ((maskedPairs u t).map (fun p => |p.1 - p.2|)) /
      (lmean ((maskedPairs u t).map (fun p => |p.1 - p.2|)) + 1e-6) := by
    apply div_nonneg (lstd_nonneg _)
    norm_num
    linarith
  refine ⟨⟨?_, ?_⟩, ⟨?_, ?_⟩, hrep⟩
  · apply div_nonneg _ (by positivity)
    positivity
  · rw [div_le_iff (by rw [List.length_map]; exact hnpos)]
    have hc : (((maskedPairs u t).map (fun p => |1200 * Real.logb 2 (p.1 / p.2)|)).countP
        (fun e => decide (e < tol)) : ℝ) ≤
        (((maskedPairs u t).map (fun p => |1200 * Real.logb 2 (p.1 / p.2)|)).length : ℝ) := by
      exact_mod_cast List.countP_le_length _
    nlinarith
  · positivity
  · rw [div_le_one (by linarith)]
    linarith

/-- C1 witness: a singleton perfectly matched pair. -/
theorem report_and_metrics_bounds_witness :
    maskedPairs [some (440 : ℝ)] [some (440 : ℝ)] ≠ [] ∧
    ((0 ≤ (analyze_pitch_accuracy 100 [some (440 : ℝ)] [some (440 : ℝ)] []).accuracy ∧
      (analyze_pitch_accuracy 100 [some (440 : ℝ)] [some (440 : ℝ)] []).accuracy ≤ 100) ∧
    (0 ≤ (analyze_pitch_accuracy 100 [some (440 : ℝ)] [some (440 : ℝ)] []).stability ∧
      (analyze_pitch_accuracy 100 [some (440 : ℝ)] [some (440 : ℝ)] []).stability ≤ 1) ∧
    (∀ (fr : ℝ × ℝ) (md : ℝ) (smooth : List ℝ → List ℝ)
      (scorer : Option (List (Option ℝ) → List (Option ℝ) → ℝ))
      (u2 t2 : List (Option ℝ)) (tm2 : List ℝ),
      0 ≤ (generate_report 100 fr md smooth scorer u2 t2 tm2).total_score ∧
      (generate_report 100 fr md smooth scorer u2 t2 tm2).total_score ≤ 100)) :=
  ⟨by simp, report_and_metrics_bounds 100 [some (440 : ℝ)] [some (440 : ℝ)] [] (by simp)⟩

/-- The absolute cents error of 466.16 Hz against 440 Hz is strictly below
100 cents: 466.16 is slightly flat of the true semitone 440 * 2 ^ (1/12),
which is about 466.1638 Hz. -/
theorem cents_466_16_lt_100 : |1200 * Real.logb 2 ((466.16 : ℝ) / 440)| < 100 := by
  have hpos : (0 : ℝ) < 466.16 / 440 := by norm_num
  have hlog0 : 0 ≤ Real.logb 2 ((466.16 : ℝ) / 440) :=
    Real.logb_nonneg (by norm_num) (by norm_num)
  have hb : ((2 : ℝ) ^ ((1 : ℝ) / 12)) ^ (12 : ℕ) = 2 := by
    rw [← Real.rpow_natCast ((2 : ℝ) ^ ((1 : ℝ) / 12)) 12,
      ← Real.rpow_mul (by norm_num : (0 : ℝ) ≤ 2)]
    norm_num
  have hlt : ((466.16 : ℝ) / 440) < (2 : ℝ) ^ ((1 : ℝ) / 12) := by
    have h12 : ((466.16 : ℝ) / 440) ^ (12 : ℕ) < ((2 : ℝ) ^ ((1 : ℝ) / 12)) ^ (12 : ℕ) := by
      rw [hb, div_pow, div_lt_iff₀ (by positivity)]
      norm_num
    exact lt_of_pow_lt_pow_left₀ 12 (by positivity) h12
  have hkey : Real.logb 2 ((466.16 : ℝ) / 440) < 1 / 12 :=
    calc Real.logb 2 ((466.16 : ℝ) / 440) < Real.logb 2 ((2 : ℝ) ^ ((1 : ℝ) / 12)) :=
          Real.logb_lt_logb (by norm_num) hpos hlt
      _ = 1 / 12 := Real.logb_rpow (by norm_num) (by norm_num)
  rw [abs_of_nonneg (mul_nonneg (by norm_num) hlog0)]
  linarith

/-- Masking two constant fully voiced contours pairs them pointwise. -/
theorem maskedPairs_replicate (a b : ℝ) :
    ∀ n : ℕ, maskedPairs (List.replicate n (some a)) (List.replicate n (some b)) =
      List.replicate n (a, b) := by
  intro n
  induction n with
  | zero => rfl
  | succ n ih => simp [List.replicate_succ, ih]

/-- countP over a replicated list counts all or nothing. -/
theorem countP_replicate {α : Type} (p : α → Bool) (a : α) :
    ∀ n : ℕ, (List.replicate n a).countP p = if p a then n else 0 := by
  intro n
  induction n with
  | zero => simp
  | succ n ih =>
    rw [List.replicate_succ, List.countP_cons, ih]
    cases h : p a <;> simp [h]

/-- When every masked pair is strictly within tolerance, the accuracy is
exactly 100 percent. -/
theorem accuracy_all_within (tol : ℝ) (u t : List (Option ℝ)) (time : List ℝ)
    (hne : maskedPairs u t ≠ [])
    (hall : ∀ p ∈ maskedPairs u t, |1200 * Real.logb 2 (p.1 / p.2)| < tol) :
    (analyze_pitch_accuracy tol u t time).accuracy = 100 := by
  simp only [analyze_pitch_accuracy, if_neg hne]
  have hcount : (((maskedPairs u t).map (fun p => |1200 * Real.logb 2 (p.1 / p.2)|)).countP
      (fun e => decide (e < tol))) =
      ((maskedPairs u t).map (fun p => |1200 * Real.logb 2 (p.1 / p.2)|)).length := by
    rw [List.countP_eq_length]
    intro a ha
    rcases List.mem_map.mp ha with ⟨p, hp, rfl⟩
    exact decide_eq_true (hall p hp)
  rw [hcount, List.length_map]
  have hlen : ((maskedPairs u t).length : ℝ) ≠ 0 := by
    have := List.length_pos.mpr hne
    positivity
  rw [mul_div_assoc, div_self hlen, mul_one]

/-- C2 counterexample: with the default 100-cent tolerance, a 466.16 Hz
user frame against a 440 Hz target frame gives accuracy 100, not 0: the
cents error is about 99.99, strictly below the tolerance. -/
theorem semitone_sharp_cex :
    (analyze_pitch_accuracy 100 [some (466.16 : ℝ)] [some (440 : ℝ)] []).accuracy = 100
    ∧ ¬ ((analyze_pitch_accuracy 100 [some (466.16 : ℝ)] [some (440 : ℝ)] []).accuracy = 0) := by
  have hacc : (analyze_pitch_accuracy 100 [some (466.16 : ℝ)] [some (440 : ℝ)] []).accuracy = 100 := by
    apply accuracy_all_within
    · simp
    · intro p hp
      simp at hp
      rw [hp]
      simpa using cents_466_16_lt_100
  exact ⟨hacc, by rw [hacc]; norm_num⟩

/-- C2 (amended): constant 466.16 Hz user frames against constant 440 Hz
target frames are strictly inside the default 100-cent tolerance, so for
any positive frame count the accuracy is 100 rather than 0; the cents
error sits just below the boundary, not on it. -/
theorem semitone_sharp_accuracy (n : ℕ) (hn : 1 ≤ n) (time : List ℝ) :
    (analyze_pitch_accuracy 100 (List.replicate n (some (466.16 : ℝ)))
        (List.replicate n (some (440 : ℝ))) time).accuracy = 100
    ∧ |1200 * Real.logb 2 ((466.16 : ℝ) / 440)| < 100 := by
  refine ⟨?_, cents_466_16_lt_100⟩
  have hm := maskedPairs_replicate (466.16 : ℝ) (440 : ℝ) n
  apply accuracy_all_within
  · rw [hm]
    intro hcon
    have := congrArg List.length hcon
    simp at this
    omega
  · intro p hp
    rw [hm] at hp
    rw [List.eq_of_mem_replicate hp]
    simpa using cents_466_16_lt_100

/-- C2 witness for the amended claim: one frame. -/
theorem semitone_sharp_accuracy_witness :
    (1 : ℕ) ≤ 1 ∧
    ((analyze_pitch_accuracy 100 (List.replicate 1 (some (466.16 : ℝ)))
        (List.replicate 1 (some (440 : ℝ))) []).accuracy = 100
      ∧ |1200 * Real.logb 2 ((466.16 : ℝ) / 440)| < 100) :=
  ⟨le_refl 1, semitone_sharp_accuracy 1 (le_refl 1) []⟩

/-- C8: each rejection gate of detect_vibrato independently forces the
not-detected result (frequency and depth absent, coverage 0), and a
detected result carries a frequency inside freq_range and a depth of at
least min_depth. -/
theorem detect_vibrato_gates (fr : ℝ × ℝ) (md : ℝ) (smooth : List ℝ → List ℝ)
    (pitch : List (Option ℝ)) (time : List ℝ) :
    (pitch.countP (fun v => v.isSome) < 100 →
      detect_vibrato fr md smooth pitch time = VibratoMetrics.notDetected)
    ∧ (vibrato_peaks smooth pitch time = [] →
      detect_vibrato fr md smooth pitch time = VibratoMetrics.notDetected)
    ∧ (¬ (fr.1 ≤ vibrato_freq smooth pitch time ∧ vibrato_freq smooth pitch time ≤ fr.2) →
      detect_vibrato fr md smooth pitch time = VibratoMetrics.notDetected)
    ∧ (|vibrato_depth smooth pitch time| < md →
      detect_vibrato fr md smooth pitch time = VibratoMetrics.notDetected)
    ∧ ((detect_vibrato fr md smooth pitch time).detected = true →
      (detect_vibrato fr md smooth pitch time).frequency_hz =
          some (vibrato_freq smooth pitch time)
      ∧ fr.1 ≤ vibrato_freq smooth pitch time
      ∧ vibrato_freq smooth pitch time ≤ fr.2
      ∧ (detect_vibrato fr md smooth pitch time).depth_cents =
          some |vibrato_depth smooth pitch time|
      ∧ md ≤ |vibrato_depth smooth pitch time|) := by
  unfold detect_vibrato
  split_ifs with h1 h2 h3 h4 h5
  · exact ⟨fun _ => rfl, fun _ => rfl, fun _ => rfl, fun _ => rfl,
      by intro hd; simp [VibratoMetrics.notDetected] at hd⟩
  · exact ⟨fun _ => rfl, fun _ => rfl, fun _ => rfl, fun _ => rfl,
      by intro hd; simp [VibratoMetrics.notDetected] at hd⟩
  · exact ⟨fun _ => rfl, fun _ => rfl, fun _ => rfl, fun _ => rfl,
      by intro hd; simp [VibratoMetrics.notDetected] at hd⟩
  · exact ⟨fun _ => rfl, fun _ => rfl, fun _ => rfl, fun _ => rfl,
      by intro hd; simp [VibratoMetrics.notDetected] at hd⟩
  · refine ⟨fun hc => absurd hc h1, fun hc => absurd hc h3, fun hc => absurd h4 hc,
      fun hc => absurd hc h5, fun _ => ⟨rfl, h4.1, h4.2, rfl, not_lt.mp h5⟩⟩
  · exact ⟨fun _ => rfl, fun _ => rfl, fun _ => rfl, fun _ => rfl,
      by intro hd; simp [VibratoMetrics.notDetected] at hd⟩

/-- C8 witness: the empty contour trips the first gate. -/
theorem detect_vibrato_gates_witness :
    ([] : List (Option ℝ)).countP (fun v => v.isSome) < 100 ∧
    detect_vibrato ((4 : ℝ), (8 : ℝ)) 30 id ([] : List (Option ℝ)) [] =
      VibratoMetrics.notDetected :=
  ⟨by simp, (detect_vibrato_gates ((4 : ℝ), (8 : ℝ)) 30 id [] []).1 (by simp)⟩

/-- Length of the 1-second ramp grid. -/
theorem rampTimes_length : ∀ (n : ℕ) (s : ℝ), (rampTimes n s).length = n := by
  intro n
  induction n with
  | zero => intro s; rfl
  | succ n ih => intro s; simp [rampTimes, ih]

/-- Successive differences of the 1-second ramp grid are all 1. -/
theorem rampTimes_diffs : ∀ (n : ℕ) (s : ℝ),
    List.zipWith (fun a b => a - b) (rampTimes n s).tail (rampTimes n s) =
      List.replicate (n - 1) (1 : ℝ) := by
  intro n
  induction n with
  | zero => intro s; rfl
  | succ n ih =>
    intro s
    cases n with
    | zero => rfl
    | succ m =>
      have ih2 : List.zipWith (fun a b => a - b)
          (rampTimes m (s + 1 + 1)) ((s + 1) :: rampTimes m (s + 1 + 1)) =
          List.replicate m (1 : ℝ) := by
        have := ih (s + 1)
        simpa [rampTimes] using this
      show List.zipWith (fun a b => a - b)
          ((s + 1) :: rampTimes m (s + 1 + 1))
          (s :: (s + 1) :: rampTimes m (s + 1 + 1)) = List.replicate (m + 1) (1 : ℝ)
      rw [List.zipWith_cons_cons, ih2, List.replicate_succ]
      congr 1
      ring

/-- The mean sample interval of a 1-second ramp grid with at least two
samples is 1. -/
theorem mean_sample_interval_rampTimes (n : ℕ) (s : ℝ) (hn : 2 ≤ n) :
    mean_sample_interval (rampTimes n s) = 1 := by
  unfold mean_sample_interval lmean
  rw [rampTimes_diffs n s, List.sum_replicate, List.length_replicate,
    nsmul_eq_mul, mul_one]
  have hnz : ((n - 1 : ℕ) : ℝ) ≠ 0 := by
    have h1 : 0 < n - 1 := by omega
    exact_mod_cast Nat.pos_iff_ne_zero.mp h1
  exact div_self hnz

/-- A fully voiced constant contour pairs every time sample with the
constant value. -/
theorem voicedPairs_replicate_some (c : ℝ) : ∀ (ts : List ℝ),
    voicedPairs (List.replicate ts.length (some c)) ts = ts.map (fun x => (x, c)) := by
  intro ts
  induction ts with
  | nil => rfl
  | cons t ts ih => simp [List.replicate_succ, ih]

/-- C3: on 100 voiced frames sampled 1 second apart, detect_vibrato's
autocorrelation window is 50 lags, which is 50 seconds of real time at the
mean sample interval: the 0.5-second real-time cap stated in the spec (and
in the source's own comment) is not implemented. -/
theorem vibrato_lag_cap_bug :
    vibrato_max_lag id (List.replicate 100 (some (300 : ℝ))) (rampTimes 100 0) = 50
    ∧ mean_sample_interval
        ((voicedPairs (List.replicate 100 (some (300 : ℝ))) (rampTimes 100 0)).map Prod.fst) = 1
    ∧ ¬ (((vibrato_max_lag id (List.replicate 100 (some (300 : ℝ))) (rampTimes 100 0) : ℕ) : ℝ)
        * mean_sample_interval
            ((voicedPairs (List.replicate 100 (some (300 : ℝ))) (rampTimes 100 0)).map Prod.fst)
        ≤ 0.5) := by
  have hlen : (rampTimes 100 (0 : ℝ)).length = 100 := rampTimes_length 100 0
  have hvp : voicedPairs (List.replicate 100 (some (300 : ℝ))) (rampTimes 100 0) =
      (rampTimes 100 0).map (fun x => (x, (300 : ℝ))) := by
    have h := voicedPairs_replicate_some (300 : ℝ) (rampTimes 100 0)
    rw [hlen] at h
    exact h
  have hmsi : mean_sample_interval
      ((voicedPairs (List.replicate 100 (some (300 : ℝ))) (rampTimes 100 0)).map Prod.fst) = 1 := by
    rw [hvp, List.map_map]
    have hid : (Prod.fst ∘ fun x : ℝ => (x, (300 : ℝ))) = fun x : ℝ => x := rfl
    rw [hid, List.map_id']
    exact mean_sample_interval_rampTimes 100 0 (by norm_num)
  have hml : vibrato_max_lag id (List.replicate 100 (some (300 : ℝ))) (rampTimes 100 0) = 50 := by
    unfold vibrato_max_lag vibrato_residual
    rw [hvp]
    simp [List.length_zipWith, hlen]
  refine ⟨hml, hmsi, ?_⟩
  rw [hml, hmsi]
  norm_num

/-- C4: on a well-formed target contour, align_pitch returns exactly one
entry per target time; with fewer than 2 voiced source points it is the
all-absent contour of target length; otherwise each entry is the linear
interpolation (with extrapolation) of the voiced source points at the
target time, passed through the 50 to 2000 Hz plausibility filter. -/
theorem align_pitch_spec (up : List (Option ℝ)) (ut : List ℝ)
    (tp : List (Option ℝ)) (tt : List ℝ) (h : tp.length = tt.length) :
    (align_pitch up ut tp tt).length = tt.length
    ∧ (up.countP (fun v => v.isSome) < 2 →
        align_pitch up ut tp tt = List.replicate tt.length none)
    ∧ (2 ≤ up.countP (fun v => v.isSome) →
        ∀ i : ℕ, (align_pitch up ut tp tt)[i]? =
          (tt[i]?).map (fun x => clipRange (interp1d (voicedPairs up ut) x)))
    ∧ (∀ v : ℝ, ((v < 50 ∨ 2000 < v) → clipRange v = none)
        ∧ (50 ≤ v → v ≤ 2000 → clipRange v = some v)) := by
  refine ⟨?_, ?_, ?_, ?_⟩
  · unfold align_pitch
    split_ifs
    · rw [List.length_map, h]
    · rw [List.length_map]
  · intro hc
    unfold align_pitch
    rw [if_pos hc, ← h]
    exact List.map_const' tp none
  · intro hc i
    unfold align_pitch
    rw [if_neg (by omega)]
    exact List.getElem?_map _ tt i
  · intro v
    refine ⟨?_, ?_⟩
    · intro hv
      unfold clipRange
      rcases hv with hv | hv
      · rw [if_pos hv]
      · rw [if_neg (by linarith), if_pos hv]
    · intro h1 h2
      unfold clipRange
      rw [if_neg (by linarith), if_neg (by linarith)]

/-- C4 witness: a degenerate source with a length-2 target contour. -/
theorem align_pitch_spec_witness :
    ([some (100 : ℝ), none] : List (Option ℝ)).length = ([3, 4] : List ℝ).length ∧
    ((align_pitch [some (100 : ℝ)] [0] [some (100 : ℝ), none] [3, 4]).length =
        ([3, 4] : List ℝ).length
    ∧ (([some (100 : ℝ)] : List (Option ℝ)).countP (fun v => v.isSome) < 2 →
        align_pitch [some (100 : ℝ)] [0] [some (100 : ℝ), none] [3, 4] =
          List.replicate ([3, 4] : List ℝ).length none)
    ∧ (2 ≤ ([some (100 : ℝ)] : List (Option ℝ)).countP (fun v => v.isSome) →
        ∀ i : ℕ, (align_pitch [some (100 : ℝ)] [0] [some (100 : ℝ), none] [3, 4])[i]? =
          (([3, 4] : List ℝ)[i]?).map
            (fun x => clipRange (interp1d (voicedPairs [some (100 : ℝ)] [0]) x)))
    ∧ (∀ v : ℝ, ((v < 50 ∨ 2000 < v) → clipRange v = none)
        ∧ (50 ≤ v → v ≤ 2000 → clipRange v = some v))) :=
  ⟨rfl, align_pitch_spec [some (100 : ℝ)] [0] [some (100 : ℝ), none] [3, 4] rfl⟩

/-- A segment evaluated at its left knot returns the left value. -/
theorem interpSeg_left (a b : ℝ × ℝ) : interpSeg a b a.1 = a.2 := by
  unfold interpSeg
  rw [sub_self, zero_mul, zero_div, add_zero]

/-- A segment evaluated at its right knot returns the right value. -/
theorem interpSeg_right (a b : ℝ × ℝ) (h : a.1 < b.1) : interpSeg a b b.1 = b.2 := by
  unfold interpSeg
  have hne : b.1 - a.1 ≠ 0 := sub_ne_zero.mpr (ne_of_gt h)
  rw [mul_div_cancel_left₀ _ hne]
  ring

/-- Linear interpolation over at least two strictly increasing knots is
exact at every knot. -/
theorem interp1d_at_knot : ∀ (pts : List (ℝ × ℝ)), 2 ≤ pts.length →
    pts.Pairwise (fun p q => p.1 < q.1) → ∀ p ∈ pts, interp1d pts p.1 = p.2 := by
  intro pts
  induction pts with
  | nil => intro h; simp at h
  | cons a tl ih =>
    intro hlen hpw p hp
    cases tl with
    | nil => simp at hlen
    | cons b tl2 =>
      have hab : a.1 < b.1 := (List.pairwise_cons.mp hpw).1 b (List.mem_cons_self _ _)
      cases tl2 with
      | nil =>
        rcases List.mem_cons.mp hp with rfl | hp2
        · show interpSeg p b p.1 = p.2
          exact interpSeg_left p b
        · rcases List.mem_singleton.mp hp2 with rfl
          show interpSeg a p p.1 = p.2
          exact interpSeg_right a p hab
      | cons c tl3 =>
        rcases List.mem_cons.mp hp with rfl | hp2
        · show (if p.1 ≤ b.1 then interpSeg p b p.1 else interp1d (b :: c :: tl3) p.1) = p.2
          rw [if_pos (le_of_lt hab)]
          exact interpSeg_left p b
        rcases List.mem_cons.mp hp2 with rfl | hp3
        · show (if p.1 ≤ p.1 then interpSeg a p p.1 else interp1d (p :: c :: tl3) p.1) = p.2
          rw [if_pos (le_refl _)]
          exact interpSeg_right a p hab
        · have hbp : b.1 < p.1 :=
            (List.pairwise_cons.mp (List.pairwise_cons.mp hpw).2).1 p hp3
          show (if p.1 ≤ b.1 then interpSeg a b p.1 else interp1d (b :: c :: tl3) p.1) = p.2
          rw [if_neg (not_le.mpr hbp)]
          exact ih (by simp) (List.pairwise_cons.mp hpw).2 p (List.mem_cons.mpr (Or.inr hp3))

/-- First components of voiced pairs come from the time grid. -/
theorem voicedPairs_fst_mem : ∀ (up : List (Option ℝ)) (ut : List ℝ) (p : ℝ × ℝ),
    p ∈ voicedPairs up ut → p.1 ∈ ut := by
  intro up
  induction up with
  | nil => intro ut p hp; simp at hp
  | cons o tl ih =>
    intro ut p hp
    cases ut with
    | nil => simp at hp
    | cons t ts =>
      cases o with
      | none =>
        rw [voicedPairs_cons_none] at hp
        exact List.mem_cons.mpr (Or.inr (ih ts p hp))
      | some v =>
        rw [voicedPairs_cons_some] at hp
        rcases List.mem_cons.mp hp with rfl | hp2
        · exact List.mem_cons_self _ _
        · exact List.mem_cons.mpr (Or.inr (ih ts p hp2))

/-- A strictly increasing time grid yields strictly increasing voiced
pair times. -/
theorem voicedPairs_pairwise : ∀ (up : List (Option ℝ)) (ut : List ℝ),
    ut.Pairwise (· < ·) →
    (voicedPairs up ut).Pairwise (fun p q : ℝ × ℝ => p.1 < q.1) := by
  intro up
  induction up with
  | nil => intro ut _; simp
  | cons o tl ih =>
    intro ut hpw
    cases ut with
    | nil => simp
    | cons t ts =>
      have hts := (List.pairwise_cons.mp hpw).2
      have hhead := (List.pairwise_cons.mp hpw).1
      cases o with
      | none =>
        rw [voicedPairs_cons_none]
        exact ih ts hts
      | some v =>
        rw [voicedPairs_cons_some]
        refine List.pairwise_cons.mpr ⟨?_, ih ts hts⟩
        intro q hq
        exact hhead q.1 (voicedPairs_fst_mem tl ts q hq)

/-- On equal-length contour components the number of voiced pairs is the
voiced frame count. -/
theorem voicedPairs_length : ∀ (up : List (Option ℝ)) (ut : List ℝ),
    up.length = ut.length →
    (voicedPairs up ut).length = up.countP (fun v => v.isSome) := by
  intro up
  induction up with
  | nil => intro ut _; simp
  | cons o tl ih =>
    intro ut hlen
    cases ut with
    | nil => simp at hlen
    | cons t ts =>
      have hlen2 : tl.length = ts.length := by simpa using hlen
      cases o with
      | none =>
        rw [voicedPairs_cons_none, List.countP_cons]
        simp [ih ts hlen2]
      | some v =>
        rw [voicedPairs_cons_some, List.countP_cons]
        simp [ih ts hlen2]

/-- A voiced frame at index i pairs with the time sample at index i. -/
theorem voicedPairs_mem_of_voiced : ∀ (up : List (Option ℝ)) (ut : List ℝ)
    (i : ℕ) (v : ℝ), up.length = ut.length → up[i]? = some (some v) →
    ∃ t : ℝ, ut[i]? = some t ∧ (t, v) ∈ voicedPairs up ut := by
  intro up
  induction up with
  | nil => intro ut i v _ hv; simp at hv
  | cons o tl ih =>
    intro ut i v hlen hv
    cases ut with
    | nil => simp at hlen
    | cons t ts =>
      have hlen2 : tl.length = ts.length := by simpa using hlen
      cases i with
      | zero =>
        have ho : o = some v := by simpa using hv
        subst ho
        exact ⟨t, by simp, by rw [voicedPairs_cons_some]; exact List.mem_cons_self _ _⟩
      | succ n =>
        have hv2 : tl[n]? = some (some v) := by simpa using hv
        rcases ih ts n v hlen2 hv2 with ⟨t2, ht2, hmem⟩
        refine ⟨t2, by simpa using ht2, ?_⟩
        cases o with
        | none =>
          rw [voicedPairs_cons_none]
          exact hmem
        | some w =>
          rw [voicedPairs_cons_some]
          exact List.mem_cons.mpr (Or.inr hmem)

/-- C9 counterexample: a contour with a single voiced point (440 Hz at
time 0) aligned onto its own grid loses the voiced value: the result is
all-absent, while the original index 0 was voiced. -/
theorem align_pitch_roundtrip_cex :
    (align_pitch [some (440 : ℝ), none] [0, 1] [some (440 : ℝ), none] [0, 1])[0]? =
      some none
    ∧ ([some (440 : ℝ), none] : List (Option ℝ))[0]? = some (some 440) := by
  constructor
  · unfold align_pitch
    rw [if_pos (by simp [List.countP_cons])]
    rfl
  · rfl

/-- C9 (amended): aligning a contour onto its own time grid preserves
every voiced value, provided the grid is strictly increasing, at least two
frames are voiced, and every voiced value lies inside the 50 to 2000 Hz
plausibility band; with fewer than two voiced points the result is
all-absent, and out-of-band voiced values are filtered to absent. -/
theorem align_pitch_roundtrip (up : List (Option ℝ)) (ut : List ℝ)
    (tp : List (Option ℝ))
    (hlen : up.length = ut.length)
    (hsort : ut.Pairwise (· < ·))
    (hcnt : 2 ≤ up.countP (fun v => v.isSome))
    (hrange : ∀ v : ℝ, some v ∈ up → 50 ≤ v ∧ v ≤ 2000)
    (i : ℕ) (v : ℝ) (hv : up[i]? = some (some v)) :
    (align_pitch up ut tp ut)[i]? = some (some v) := by
  unfold align_pitch
  rw [if_neg (by omega)]
  rcases voicedPairs_mem_of_voiced up ut i v hlen hv with ⟨t, ht, hmem⟩
  rw [List.getElem?_map _ ut i, ht, Option.map_some']
  have h2 : 2 ≤ (voicedPairs up ut).length := by
    rw [voicedPairs_length up ut hlen]
    exact hcnt
  have hknot := interp1d_at_knot (voicedPairs up ut) h2
    (voicedPairs_pairwise up ut hsort) (t, v) hmem
  have hval : interp1d (voicedPairs up ut) t = v := hknot
  rw [hval]
  have hr := hrange v (List.getElem?_mem hv)
  unfold clipRange
  rw [if_neg (by linarith [hr.1]), if_neg (by linarith [hr.2])]

/-- C9 witness for the amended claim: a two-point in-band contour aligned
onto its own grid keeps its first voiced value. -/
theorem align_pitch_roundtrip_witness :
    ([some (100 : ℝ), some 200] : List (Option ℝ)).length = ([0, 1] : List ℝ).length ∧
    2 ≤ ([some (100 : ℝ), some 200] : List (Option ℝ)).countP (fun v => v.isSome) ∧
    (align_pitch [some (100 : ℝ), some 200] [0, 1] [some (100 : ℝ), some 200] [0, 1])[0]? =
      some (some 100) :=
  ⟨rfl, by simp [List.countP_cons],
    align_pitch_roundtrip [some (100 : ℝ), some 200] [0, 1] [some (100 : ℝ), some 200]
      rfl
      (by norm_num [List.pairwise_cons])
      (by simp [List.countP_cons])
      (by
        intro v hv
        simp only [List.mem_cons, List.mem_singleton] at hv
        rcases hv with hv | hv | hv
        · rcases Option.some.inj hv with rfl
          norm_num
        · rcases Option.some.inj hv with rfl
          norm_num
        · simp at hv)
      0 100 rfl⟩

end AiCore
